import Mathlib

set_option maxHeartbeats 1000000
set_option maxRecDepth 8192

/-!
Verification of the LightningCluster backend: a shallow embedding of the
decode pipeline (backend/blitzortung_parser.py) and of the spatial analysis
engine (backend/blitzortung_api.py and backend/app.py), together with
theorems checking the specified behavior of the code.

Python strings that are processed character by character are modelled as
lists of Unicode code points (natural numbers).  Python floats are modelled
as elements of a linear ordered field (rationals in concrete witnesses, the
reals for the trigonometric haversine formula).
-/

/-! ## blitzortung_parser.blitzortung_lzw_decode

The custom LZW-style string decoder.  The dictionary mapping integer codes
to strings is modelled as an association list (codes are assigned once each,
so lookup order is irrelevant). -/

def lookupD (dict : List (ℕ × List ℕ)) (code : ℕ) (dfl : List ℕ) : List ℕ :=
  match dict with
  | [] => dfl
  | (k, v) :: rest => if k = code then v else lookupD rest code dfl

/-- The main loop of `blitzortung_lzw_decode` over the remaining characters.
`prev` is the previously emitted string; at the start of each iteration the
Python variable `head` always equals `prev[0]`, so the fallback
`prev + head` is modelled as `prev ++ [prev.headD 0]`.  Emitted entries are
never empty on reachable states, so `headD 0` agrees with Python's
`entry[0]`. -/
def lzwLoop (dict : List (ℕ × List ℕ)) (prev : List ℕ) (nextCode : ℕ) :
    List ℕ → List (List ℕ)
  | [] => []
  | c :: rest =>
    let entry := if c < 256 then [c] else lookupD dict c (prev ++ [prev.headD 0])
    entry :: lzwLoop ((nextCode, prev ++ [entry.headD 0]) :: dict) entry (nextCode + 1) rest

/-- `blitzortung_lzw_decode`: the first character is emitted literally, the
rest are processed by `lzwLoop`; the emitted strings are concatenated. -/
def blitzortung_lzw_decode : List ℕ → List ℕ
  | [] => []
  | c :: rest => (([c] :: lzwLoop [] [c] 256 rest)).flatten

lemma lzwLoop_literal :
    ∀ (rest : List ℕ) (dict : List (ℕ × List ℕ)) (prev : List ℕ) (nextCode : ℕ),
      (∀ c ∈ rest, c < 256) →
      lzwLoop dict prev nextCode rest = rest.map (fun c => [c]) := by
  intro rest
  induction rest with
  | nil => intro dict prev nc _; rfl
  | cons c rest ih =>
    intro dict prev nc h
    have hc : c < 256 := h c (by simp)
    simp only [lzwLoop, if_pos hc]
    rw [ih _ _ _ (fun x hx => h x (by simp [hx]))]
    simp

lemma join_map_singleton (l : List ℕ) : (l.map (fun c => [c])).flatten = l := by
  induction l with
  | nil => rfl
  | cons c l ih => simp [ih]

/-! ## blitzortung_parser.decode_binary_value

A Python string value is modelled as its list of code points; the result is
either an integer or a string. -/

inductive PyVal where
  | int : ℕ → PyVal
  | str : List ℕ → PyVal
deriving DecidableEq

/-- Big-endian interpretation of a byte sequence (what `struct.unpack` with
format `>H` on 2 bytes and `>I` on 4 bytes computes). -/
def bytesToBE (l : List ℕ) : ℕ := l.foldl (fun acc b => acc * 256 + b) 0

/-- Lowercase hexadecimal digit of a value below 16 (code point of the digit
character), as produced by Python's `bytes.hex()`. -/
def hexDigit (n : ℕ) : ℕ := if n < 10 then 48 + n else 87 + n

/-- `bytes.hex()`: two lowercase hex digits per byte. -/
def bytesToHex (l : List ℕ) : List ℕ :=
  l.flatMap (fun b => [hexDigit (b / 16), hexDigit (b % 16)])

/-- `decode_binary_value` from blitzortung_parser.py.  A string with only
code points ≤ 127 is returned unchanged.  Otherwise the string is encoded
with latin-1 (which raises, hence returns the original value, iff some code
point exceeds 255), and the resulting bytes are decoded as a big-endian
16-bit or 32-bit unsigned integer when there are exactly 2 or 4 of them,
and to their lowercase hex encoding otherwise. -/
def decode_binary_value (s : List ℕ) : PyVal :=
  if s.all (fun c => decide (c ≤ 127)) then .str s
  else if s.all (fun c => decide (c ≤ 255)) then
    if s.length = 2 then .int (bytesToBE s)
    else if s.length = 4 then .int (bytesToBE s)
    else .str (bytesToHex s)
  else .str s

/-- The code points of the lowercase hex digits 0123456789abcdef. -/
def hexCharsLower : List ℕ :=
  [48, 49, 50, 51, 52, 53, 54, 55, 56, 57, 97, 98, 99, 100, 101, 102]

/-- The behavior of the value normalizer as the specification words it:
ASCII-only strings pass through; a code point above 255 means the
reinterpretation as bytes fails and the original string is returned;
2 bytes decode as a big-endian unsigned 16-bit integer, 4 bytes as a
big-endian unsigned 32-bit integer, anything else as lowercase hex. -/
def decode_binary_value_spec (s : List ℕ) : PyVal :=
  if ∀ c ∈ s, c ≤ 127 then .str s
  else if ∃ c ∈ s, 255 < c then .str s
  else if s.length = 2 then
    .int (s.getD 0 0 * 256 + s.getD 1 0)
  else if s.length = 4 then
    .int (s.getD 0 0 * 16777216 + s.getD 1 0 * 65536 + s.getD 2 0 * 256 + s.getD 3 0)
  else .str (s.flatMap (fun b => [hexCharsLower.getD (b / 16) 0, hexCharsLower.getD (b % 16) 0]))

lemma hexDigit_table (n : ℕ) (h : n < 16) : hexDigit n = hexCharsLower.getD n 0 := by
  interval_cases n <;> rfl

lemma bytesToHex_table (l : List ℕ) (h : ∀ b ∈ l, b ≤ 255) :
    bytesToHex l =
      l.flatMap (fun b => [hexCharsLower.getD (b / 16) 0, hexCharsLower.getD (b % 16) 0]) := by
  induction l with
  | nil => rfl
  | cons b l ih =>
    have hb : b ≤ 255 := h b (by simp)
    have hdiv : b / 16 < 16 := Nat.div_lt_of_lt_mul (by omega)
    have hmod : b % 16 < 16 := Nat.mod_lt _ (by norm_num)
    have ih' := ih (fun x hx => h x (by simp [hx]))
    simp only [bytesToHex, List.flatMap_cons] at *
    rw [hexDigit_table _ hdiv, hexDigit_table _ hmod, ih']

/-! ## Haversine distance (CMPSC463Algorithms.haversine_distance)

Both app.py and blitzortung_api.py implement the same formula over floats;
it is modelled over the reals. -/

/-- `math.radians`. -/
noncomputable def radians (x : ℝ) : ℝ := x * Real.pi / 180

/-- `math.atan2` for real arguments (standard library convention). -/
noncomputable def atan2 (y x : ℝ) : ℝ :=
  if 0 < x then Real.arctan (y / x)
  else if x < 0 ∧ 0 ≤ y then Real.arctan (y / x) + Real.pi
  else if x < 0 ∧ y < 0 then Real.arctan (y / x) - Real.pi
  else if x = 0 ∧ 0 < y then Real.pi / 2
  else if x = 0 ∧ y < 0 then -(Real.pi / 2)
  else 0

/-- `haversine_distance(lat1, lon1, lat2, lon2)`:
R * 2 * atan2(sqrt(a), sqrt(1-a)) with R = 6371 and
a = sin(dlat/2)^2 + cos(lat1)*cos(lat2)*sin(dlon/2)^2, angles in radians. -/
noncomputable def haversine_distance (lat1 lon1 lat2 lon2 : ℝ) : ℝ :=
  6371 * 2 * atan2
    (Real.sqrt (Real.sin (radians (lat2 - lat1) / 2) ^ 2 +
      Real.cos (radians lat1) * Real.cos (radians lat2) *
      Real.sin (radians (lon2 - lon1) / 2) ^ 2))
    (Real.sqrt (1 - (Real.sin (radians (lat2 - lat1) / 2) ^ 2 +
      Real.cos (radians lat1) * Real.cos (radians lat2) *
      Real.sin (radians (lon2 - lon1) / 2) ^ 2)))

/-- C8: for every string value, the normalizer `decode_binary_value` never
raises and behaves exactly as specified: ASCII-only strings pass through
unchanged; otherwise the code points are reinterpreted as single bytes, a
2-byte sequence decodes as a big-endian unsigned 16-bit integer, a 4-byte
sequence as a big-endian unsigned 32-bit integer, any other length yields
the lowercase hexadecimal encoding, and any exception (a code point above
255) yields the original string unchanged. -/
theorem C8_decode_binary_value_matches_spec (s : List ℕ) :
    decode_binary_value s = decode_binary_value_spec s := by
  have e1 : (s.all (fun c => decide (c ≤ 127)) = true) ↔ (∀ c ∈ s, c ≤ 127) := by
    simp [List.all_eq_true]
  have e2 : (s.all (fun c => decide (c ≤ 255)) = true) ↔ (∀ c ∈ s, c ≤ 255) := by
    simp [List.all_eq_true]
  simp only [decode_binary_value, decode_binary_value_spec]
  by_cases h1 : ∀ c ∈ s, c ≤ 127
  · rw [if_pos (e1.mpr h1), if_pos h1]
  · rw [if_neg (fun hh => h1 (e1.mp hh)), if_neg h1]
    by_cases h2 : ∃ c ∈ s, 255 < c
    · have hno : ¬ (s.all (fun c => decide (c ≤ 255)) = true) := by
        intro hh
        obtain ⟨c, hc, hgt⟩ := h2
        exact absurd (e2.mp hh c hc) (by omega)
      rw [if_neg hno, if_pos h2]
    · have h255 : ∀ c ∈ s, c ≤ 255 := by
        intro c hc
        by_contra hgt
        exact h2 ⟨c, hc, by omega⟩
      rw [if_pos (e2.mpr h255), if_neg h2]
      by_cases hl2 : s.length = 2
      · obtain ⟨a, b, rfl⟩ : ∃ a b, s = [a, b] := by
          rcases s with _ | ⟨a, _ | ⟨b, _ | ⟨c, t⟩⟩⟩ <;> simp_all
        rw [if_pos hl2, if_pos hl2]
        simp only [bytesToBE, List.foldl_cons, List.foldl_nil]
        congr 1
        simp
      · rw [if_neg hl2, if_neg hl2]
        by_cases hl4 : s.length = 4
        · obtain ⟨a, b, c, d, rfl⟩ : ∃ a b c d, s = [a, b, c, d] := by
            rcases s with _ | ⟨a, _ | ⟨b, _ | ⟨c, _ | ⟨d, _ | t⟩⟩⟩⟩ <;> simp_all
          rw [if_pos hl4, if_pos hl4]
          simp only [bytesToBE, List.foldl_cons, List.foldl_nil]
          congr 1
          simp
          ring
        · rw [if_neg hl4, if_neg hl4]
          exact congrArg PyVal.str (bytesToHex_table s h255)

/-- C9: the dictionary-substitution decoder is the identity on strings all
of whose code points are below 256 (purely literal input), including the
empty string. -/
theorem C9_lzw_identity_on_literals (s : List ℕ) (h : ∀ c ∈ s, c < 256) :
    blitzortung_lzw_decode s = s := by
  cases s with
  | nil => rfl
  | cons c rest =>
    simp only [blitzortung_lzw_decode]
    rw [lzwLoop_literal rest [] [c] 256 (fun x hx => h x (by simp [hx]))]
    simp [join_map_singleton]

/-- Witness for C9 at the concrete literal string "hi" (code points 104, 105). -/
theorem C9_lzw_identity_witness :
    blitzortung_lzw_decode [104, 105] = [104, 105] :=
  C9_lzw_identity_on_literals [104, 105] (by decide)

/-- C10: the haversine distance primitive is symmetric in its two points,
and the distance from a point to itself is zero. -/
theorem C10_haversine_symm_zero :
    (∀ lat1 lon1 lat2 lon2 : ℝ,
      haversine_distance lat1 lon1 lat2 lon2 = haversine_distance lat2 lon2 lat1 lon1) ∧
    (∀ lat lon : ℝ, haversine_distance lat lon lat lon = 0) := by
  constructor
  · intro l1 o1 l2 o2
    have hsin : ∀ x y : ℝ,
        Real.sin (radians (x - y) / 2) ^ 2 = Real.sin (radians (y - x) / 2) ^ 2 := by
      intro x y
      have h : radians (x - y) / 2 = -(radians (y - x) / 2) := by
        simp only [radians]; ring
      rw [h, Real.sin_neg]; ring
    simp only [haversine_distance]
    rw [hsin l2 l1, hsin o2 o1, mul_comm (Real.cos (radians l1)) (Real.cos (radians l2))]
  · intro lat lon
    simp [haversine_distance, radians, sub_self, Real.sin_zero, Real.sqrt_zero, Real.sqrt_one,
      atan2, Real.arctan_zero]

/-! ## JSON value model for the persisted capture log

Parsed JSON values are modelled by `J`; Python `json.loads` is abstracted as
a parameter `parse : String → Option J` (`none` models a raised
`JSONDecodeError`).  Python operations that can raise are modelled in
`Except Unit`. -/

inductive J where
  | null : J
  | bool : Bool → J
  | num : ℚ → J
  | str : String → J
  | arr : List J → J
  | obj : List (String × J) → J

/-- Python dict lookup (`d.get(key)`); keys produced by `json.dump` are
unique, so first-match association-list lookup is exact. -/
def jsonLookup : List (String × J) → String → Option J
  | [], _ => none
  | (k, v) :: rest, key => if k = key then some v else jsonLookup rest key

/-- Python truthiness of a decoded JSON value. -/
def truthy : J → Bool
  | .null => false
  | .bool b => b
  | .num q => decide (q ≠ 0)
  | .str s => !s.data.isEmpty
  | .arr l => !l.isEmpty
  | .obj kvs => !kvs.isEmpty

/-- Substring test on code-point lists (Python `key in string`). -/
def strHasSub (s key : String) : Bool :=
  (List.range (s.data.length + 1)).any (fun i => ((s.data.drop i).take key.data.length) == key.data)

/-- Python `key in v`: key lookup for dicts, membership for lists (`'lat'`
equals only string elements), substring test for strings, `TypeError` for
anything else. -/
def pyContains (v : J) (key : String) : Except Unit Bool :=
  match v with
  | .obj kvs => .ok (jsonLookup kvs key).isSome
  | .arr l => .ok (l.any (fun x => match x with | .str s => decide (s = key) | _ => false))
  | .str s => .ok (strHasSub s key)
  | _ => .error ()

/-- Python `v[key]`: `KeyError` when the key is missing, `TypeError` when
`v` is not a dict. -/
def pyIndex (v : J) (key : String) : Except Unit J :=
  match v with
  | .obj kvs =>
    match jsonLookup kvs key with
    | some x => .ok x
    | none => .error ()
  | _ => .error ()

/-- Python `v.get(key, dfl)`: `AttributeError` when `v` is not a dict. -/
def pyGetD (v : J) (key : String) (dfl : J) : Except Unit J :=
  match v with
  | .obj kvs => .ok ((jsonLookup kvs key).getD dfl)
  | _ => .error ()

/-- Characters removed by Python `str.strip()` (the common ASCII whitespace). -/
def pyWs (c : Char) : Bool :=
  decide (c = ' ' ∨ c = '\t' ∨ c = '\n' ∨ c = '\r' ∨ c = '\x0b' ∨ c = '\x0c')

/-- Python `content.strip()`. -/
def pyStrip (s : String) : String :=
  ⟨((s.data.dropWhile pyWs).reverse.dropWhile pyWs).reverse⟩

/-- `content.startswith('[')`. -/
def startsBracket (s : String) : Bool :=
  match s.data with
  | c :: _ => decide (c = '[')
  | [] => false

/-- `content.endswith(']')`. -/
def endsBracket (s : String) : Bool :=
  match s.data.getLast? with
  | some c => decide (c = ']')
  | none => false

/-- The bracket repair both readers apply to the stripped content: append a
closing bracket when the content starts with `[` and does not end with `]`. -/
def repairContent (raw : String) : String :=
  if startsBracket raw && !endsBracket raw then raw ++ "]" else raw

/-- `data[-k:]`. -/
def lastN (k : ℕ) (l : List J) : List J := l.drop (l.length - k)

/-! ## blitzortung_api.LightningAPI.get_strikes (aiohttp reader) -/

/-- One iteration of the extraction loop of `get_strikes`:
`if entry.get('data') and 'lat' in entry['data'] and 'lon' in entry['data']`,
then the strike dict `{'lat': .., 'lon': .., 'intensity': entry['data'].get('mcg', 1)}`
is built.  Values are appended unconverted (no float coercion here). -/
def entryAio (e : J) : Except Unit (Option (J × J × J)) :=
  match e with
  | .obj kvs =>
    match jsonLookup kvs "data" with
    | none => .ok none
    | some v =>
      if truthy v then do
        let hasLat ← pyContains v "lat"
        if hasLat then do
          let hasLon ← pyContains v "lon"
          if hasLon then do
            let lat ← pyIndex v "lat"
            let lon ← pyIndex v "lon"
            let inten ← pyGetD v "mcg" (J.num 1)
            pure (some (lat, lon, inten))
          else pure none
        else pure none
      else .ok none
  | _ => .error ()

def entriesAio : List J → Except Unit (List (J × J × J))
  | [] => .ok []
  | e :: rest => do
    let c ← entryAio e
    let l ← entriesAio rest
    pure (match c with | some s => s :: l | none => l)

/-- `get_strikes` of the aiohttp server: the whole body runs inside one
`try`/`except` that returns `[]`, so a missing file, a parse failure, or any
exception during extraction (a non-list top level, a non-dict entry, ...)
yields the empty list. -/
def get_strikes_aio (parse : String → Option J) (file : Option String) : List (J × J × J) :=
  match file with
  | none => []
  | some content =>
    match parse (repairContent (pyStrip content)) with
    | none => []
    | some data =>
      match data with
      | .arr entries =>
        match entriesAio (lastN 500 entries) with
        | .ok l => l
        | .error _ => []
      | _ => []

/-- The exact shape of an entry written by
`BlitzortungRawCollector.save_message`: keys `index`, `timestamp`,
`raw_message`, `decoded` (and nothing else). -/
def CollectorEntry (e : J) : Prop :=
  ∃ i t r d, e = J.obj
    [("index", J.num i), ("timestamp", J.str t), ("raw_message", J.str r), ("decoded", d)]

lemma entryAio_collector (e : J) (h : CollectorEntry e) : entryAio e = .ok none := by
  obtain ⟨i, t, r, d, rfl⟩ := h
  have h1 : ¬ ("index" = "data") := by decide
  have h2 : ¬ ("timestamp" = "data") := by decide
  have h3 : ¬ ("raw_message" = "data") := by decide
  have h4 : ¬ ("decoded" = "data") := by decide
  simp [entryAio, jsonLookup, h1, h2, h3, h4]

lemma entriesAio_collector (entries : List J) (h : ∀ e ∈ entries, CollectorEntry e) :
    entriesAio entries = .ok [] := by
  induction entries with
  | nil => rfl
  | cons e rest ih =>
    have he := entryAio_collector e (h e (by simp))
    have hr := ih (fun x hx => h x (by simp [hx]))
    simp [entriesAio, he, hr]
    rfl

/-- C3: on every capture log produced by the collector (a JSON array of
entries whose keys are exactly `index`, `timestamp`, `raw_message`,
`decoded`), the `get_strikes` reader of blitzortung_api.py extracts no
point: it probes only a top-level `data` key the collector never writes,
so it returns the empty list. -/
theorem C3_collector_log_yields_no_strikes
    (parse : String → Option J) (content : String) (entries : List J)
    (hparse : parse (repairContent (pyStrip content)) = some (J.arr entries))
    (hshape : ∀ e ∈ entries, CollectorEntry e) :
    get_strikes_aio parse (some content) = [] := by
  have hlast : entriesAio (lastN 500 entries) = .ok [] :=
    entriesAio_collector _ (fun e he => hshape e (List.mem_of_mem_drop he))
  simp [get_strikes_aio, hparse, hlast]

/-- A concrete collector entry (successful decode of a message without a
top-level data key), used by the C3 witness. -/
def c3Entry : J :=
  J.obj [("index", J.num 0), ("timestamp", J.str "t"), ("raw_message", J.str "rm"),
    ("decoded", J.obj [("success", J.bool true)])]

/-- A concrete `json.loads` mapping the log content to a one-entry array. -/
def c3Parse : String → Option J :=
  fun s => if s = "[x]" then some (J.arr [c3Entry]) else none

/-- Witness for C3: a concrete one-entry collector log yields no strikes. -/
theorem C3_collector_log_yields_no_strikes_witness :
    get_strikes_aio c3Parse (some "[x]") = [] :=
  C3_collector_log_yields_no_strikes c3Parse "[x]" [c3Entry] (by rfl)
    (by
      intro e he
      rw [List.mem_singleton] at he
      subst he
      exact ⟨0, "t", "rm", _, rfl⟩)

/-! ## app.read_strikes_from_collector (Flask reader)

Python `float()` applied to a string is abstracted as a parameter
`sf : String → Option ℚ` (`none` models a raised `ValueError`); on numbers
and booleans `float()` is total. -/

/-- `x or {}` as applied to the result of a `.get`: a missing key or a
falsy value is replaced by the empty dict. -/
def orEmptyObj (v : Option J) : J :=
  match v with
  | some x => if truthy x then x else .obj []
  | none => .obj []

/-- `key in c` for the final candidate check (candidates are dicts). -/
def hasKey (c : J) (key : String) : Bool :=
  match c with
  | .obj kvs => (jsonLookup kvs key).isSome
  | _ => false

/-- `if "lat" in d and "lon" in d: candidate = d`: the direct probe of a
dict for both coordinate keys. -/
def latlonProbe (kvs : List (String × J)) : Option J :=
  if (jsonLookup kvs "lat").isSome && (jsonLookup kvs "lon").isSome then some (J.obj kvs)
  else none

/-- The probe applied to one container (`rawp` or `decp`):
if `"data" in container and isinstance(container["data"], dict)` and the
data dict has `lat` and `lon`, the data dict is the candidate; otherwise,
if the container itself has `lat` and `lon`, the container is. -/
def probeOne (c : J) : Option J :=
  match c with
  | .obj kvs =>
    match jsonLookup kvs "data" with
    | some (.obj dkvs) =>
      match latlonProbe dkvs with
      | some d => some d
      | none => latlonProbe kvs
    | _ => latlonProbe kvs
  | _ => none

/-- The probe app.py applies to the parsed raw message `pm`:
`if "data" in pm and isinstance(pm["data"], dict) and "lat" in pm["data"]`
then the data dict is the candidate — only `lat` is checked here —
`elif "lat" in pm and "lon" in pm` then `pm` is. -/
def rmProbeCore (pm : Option J) : Option J :=
  match pm with
  | some (.obj pkvs) =>
    match jsonLookup pkvs "data" with
    | some (.obj dkvs) =>
      if (jsonLookup dkvs "lat").isSome then some (.obj dkvs)
      else latlonProbe pkvs
    | _ => latlonProbe pkvs
  | _ => none

/-- The raw-message fallback of app.py: `rm = entry.get("raw_message", "")`,
`pm = json.loads(rm)` (exceptions swallowed, including `TypeError` on a
non-string `rm`), then `rmProbeCore`. -/
def rawMessageProbe (parse : String → Option J) (kvs : List (String × J)) : Option J :=
  match (jsonLookup kvs "raw_message").getD (J.str "") with
  | .str s => rmProbeCore (parse s)
  | _ => none

/-- Python `float()` on a decoded JSON value. -/
def pyFloat (sf : String → Option ℚ) : J → Option ℚ
  | .num q => some q
  | .bool b => some (if b then 1 else 0)
  | .str s => sf s
  | _ => none

/-- The float coercion of the final candidate:
`float(candidate["lat"])`, `float(candidate["lon"])`,
`float(candidate.get("mcg", candidate.get("intensity", 1)))`; a coercion
exception skips the entry (`except: continue`), modelled as `none`. -/
def coerceStrike (sf : String → Option ℚ) (c : J) : Option (ℚ × ℚ × ℚ) :=
  match c with
  | .obj ckvs =>
    match jsonLookup ckvs "lat", jsonLookup ckvs "lon" with
    | some lv, some lov =>
      match pyFloat sf lv, pyFloat sf lov,
        pyFloat sf ((jsonLookup ckvs "mcg").getD ((jsonLookup ckvs "intensity").getD (J.num 1))) with
      | some a, some b, some i => some (a, b, i)
      | _, _, _ => none
    | _, _ => none
  | _ => none

/-- The final `if candidate and "lat" in candidate and "lon" in candidate`
check of app.py, as a filter on the candidate. -/
def finalCheckFilter (c : J) : Option J :=
  if truthy c && hasKey c "lat" && hasKey c "lon" then some c else none

/-- The candidate from the success path of app.py: when
`parsed.get("success")` is truthy, probe `parsed.get("raw") or {}` and then
`parsed.get("decoded") or {}` with `probeOne`, keeping the first hit. -/
def entryCand0 (pkvs : List (String × J)) : Option J :=
  if (match jsonLookup pkvs "success" with | some v => truthy v | none => false) then
    match probeOne (orEmptyObj (jsonLookup pkvs "raw")) with
    | some c => some c
    | none => probeOne (orEmptyObj (jsonLookup pkvs "decoded"))
  else none

/-- One iteration of the extraction loop of `read_strikes_from_collector`:
`parsed = entry.get("decoded") or {}` (raises on a non-dict entry, and
`parsed.get` raises when `parsed` is a truthy non-dict), candidate selection
as in the source, then the final check and the float coercion. -/
def entryFlask (parse : String → Option J) (sf : String → Option ℚ) (e : J) :
    Except Unit (Option (ℚ × ℚ × ℚ)) :=
  match e with
  | .obj kvs =>
    match orEmptyObj (jsonLookup kvs "decoded") with
    | .obj pkvs =>
      match (match entryCand0 pkvs with
             | some c => some c
             | none => rawMessageProbe parse kvs) with
      | none => .ok none
      | some c =>
        match finalCheckFilter c with
        | some c => .ok (coerceStrike sf c)
        | none => .ok none
    | _ => .error ()
  | _ => .error ()

def entriesFlask (parse : String → Option J) (sf : String → Option ℚ) :
    List J → Except Unit (List (ℚ × ℚ × ℚ))
  | [] => .ok []
  | e :: rest => do
    let c ← entryFlask parse sf e
    let l ← entriesFlask parse sf rest
    pure (match c with | some s => s :: l | none => l)

/-- `read_strikes_from_collector` of app.py.  Only the file reading and the
`json.loads` call are inside the `try`/`except` that returns `[]`; the
extraction loop is outside it, so a parseable top level that is not a list
raises (a string top level only iterates — without raising — when empty),
as does a non-dict entry. -/
def read_strikes_from_collector (parse : String → Option J) (sf : String → Option ℚ)
    (file : Option String) (limit : ℕ) : Except Unit (List (ℚ × ℚ × ℚ)) :=
  match file with
  | none => .ok []
  | some content =>
    if (pyStrip content).data.isEmpty then .ok []
    else
      match parse (repairContent (pyStrip content)) with
      | none => .ok []
      | some data =>
        match data with
        | .arr entries => entriesFlask parse sf (lastN limit entries)
        | .str s => if s.data.isEmpty then .ok [] else .error ()
        | _ => .error ()

/-! ### Spec-side models for the strike-extraction claim -/

/-- Probes (a) and (b) as the claim words them: the nested `data` object
containing `lat` and `lon`, else the payload itself containing `lat` and
`lon`. -/
def claimProbePair (c : J) : Option J :=
  match c with
  | .obj kvs =>
    match jsonLookup kvs "data" with
    | some (.obj dkvs) =>
      match latlonProbe dkvs with
      | some d => some d
      | none => latlonProbe kvs
    | _ => latlonProbe kvs
  | _ => none

/-- Probes (a) and (b) applied to the payloads of a successful decode (the
raw payload, then the cleaned payload — the claim's single "payload" is
read as these two variants probed in turn, the reading both models share). -/
def specContainersProbe (pkvs : List (String × J)) : Option J :=
  if (match jsonLookup pkvs "success" with | some v => truthy v | none => false) then
    match claimProbePair (orEmptyObj (jsonLookup pkvs "raw")) with
    | some c => some c
    | none => claimProbePair (orEmptyObj (jsonLookup pkvs "decoded"))
  else none

/-- Probe (c) as the claim words it: parse the raw message string and apply
the same two probes. -/
def claimRawProbe (parse : String → Option J) (kvs : List (String × J)) : Option J :=
  match jsonLookup kvs "raw_message" with
  | some (.str s) => (parse s).bind claimProbePair
  | _ => none

/-- Strike extraction exactly as claim C4 words it: probes (a), (b) on the
payloads, then (c) the raw-message parse with the same two probes; the
first match is coerced to floats with intensity `mcg`, else `intensity`,
else 1. -/
def claimExtractEntry (parse : String → Option J) (sf : String → Option ℚ) (e : J) :
    Option (ℚ × ℚ × ℚ) :=
  match e with
  | .obj kvs =>
    match orEmptyObj (jsonLookup kvs "decoded") with
    | .obj pkvs =>
      (match specContainersProbe pkvs with
       | some c => some c
       | none => claimRawProbe parse kvs).bind (coerceStrike sf)
    | _ => none
  | _ => none

/-- Probe (c) as the code actually behaves (the amended claim): in the
parsed raw message a nested `data` dict is probed only for `lat`, and when
such a dict is found the payload itself is not probed (`elif`); a data
candidate lacking `lon` is then discarded by the final check, yielding no
point for that entry. -/
def amendedRmCore (pm : Option J) : Option J :=
  match pm with
  | some (.obj pkvs) =>
    match jsonLookup pkvs "data" with
    | some (.obj dkvs) =>
      if (jsonLookup dkvs "lat").isSome then
        (if (jsonLookup dkvs "lon").isSome then some (.obj dkvs) else none)
      else latlonProbe pkvs
    | _ => latlonProbe pkvs
  | _ => none

def amendedRawProbe (parse : String → Option J) (kvs : List (String × J)) : Option J :=
  match jsonLookup kvs "raw_message" with
  | some (.str s) => amendedRmCore (parse s)
  | _ => none

/-- Strike extraction as amended: claim C4 with probe (c) replaced by the
actual raw-message probe. -/
def amendedExtractEntry (parse : String → Option J) (sf : String → Option ℚ) (e : J) :
    Option (ℚ × ℚ × ℚ) :=
  match e with
  | .obj kvs =>
    match orEmptyObj (jsonLookup kvs "decoded") with
    | .obj pkvs =>
      (match specContainersProbe pkvs with
       | some c => some c
       | none => amendedRawProbe parse kvs).bind (coerceStrike sf)
    | _ => none
  | _ => none

/-- The entries on which the Flask extraction loop does not raise: objects
whose `decoded` field, when present and truthy, is itself an object. -/
def WellShapedEntry (e : J) : Prop :=
  ∃ kvs, e = J.obj kvs ∧
    ∀ v, jsonLookup kvs "decoded" = some v → truthy v = true → ∃ pkvs, v = J.obj pkvs

lemma claimProbePair_eq_probeOne (c : J) : claimProbePair c = probeOne c := by
  cases c <;> rfl

lemma specContainersProbe_eq (pkvs : List (String × J)) :
    specContainersProbe pkvs = entryCand0 pkvs := by
  unfold specContainersProbe entryCand0
  rw [claimProbePair_eq_probeOne, claimProbePair_eq_probeOne]

lemma jsonLookup_ne_nil {kvs : List (String × J)} {key : String}
    (h : (jsonLookup kvs key).isSome = true) : kvs ≠ [] := by
  intro hnil
  subst hnil
  simp [jsonLookup] at h

lemma latlonProbe_spec {kvs : List (String × J)} {x : J} (h : latlonProbe kvs = some x) :
    x = J.obj kvs ∧ (jsonLookup kvs "lat").isSome = true ∧
      (jsonLookup kvs "lon").isSome = true := by
  unfold latlonProbe at h
  split_ifs at h with h1
  rw [Bool.and_eq_true] at h1
  exact ⟨(Option.some.inj h).symm, h1.1, h1.2⟩

lemma finalCheckFilter_latlon {ckvs : List (String × J)}
    (hlat : (jsonLookup ckvs "lat").isSome = true)
    (hlon : (jsonLookup ckvs "lon").isSome = true) :
    finalCheckFilter (J.obj ckvs) = some (J.obj ckvs) := by
  have hne := jsonLookup_ne_nil hlat
  cases ckvs with
  | nil => exact absurd rfl hne
  | cons p rest =>
    unfold finalCheckFilter
    simp [truthy, hasKey, hlat, hlon]

lemma finalCheckFilter_of_latlonProbe {kvs : List (String × J)} {x : J}
    (h : latlonProbe kvs = some x) : finalCheckFilter x = some x := by
  obtain ⟨rfl, hlat, hlon⟩ := latlonProbe_spec h
  exact finalCheckFilter_latlon hlat hlon

lemma latlonProbe_bind_filter (kvs : List (String × J)) :
    (latlonProbe kvs).bind finalCheckFilter = latlonProbe kvs := by
  cases hl : latlonProbe kvs with
  | none => rfl
  | some x => simp [finalCheckFilter_of_latlonProbe hl]

lemma finalCheckFilter_of_probeOne {c x : J} (h : probeOne c = some x) :
    finalCheckFilter x = some x := by
  cases c with
  | obj kvs =>
    have h0 : (match jsonLookup kvs "data" with
        | some (.obj dkvs) =>
          (match latlonProbe dkvs with
           | some d => some d
           | none => latlonProbe kvs)
        | _ => latlonProbe kvs) = some x := h
    cases hd : jsonLookup kvs "data" with
    | some v =>
      cases v with
      | obj dkvs =>
        rw [hd] at h0
        have h1 : (match latlonProbe dkvs with
            | some d => some d
            | none => latlonProbe kvs) = some x := h0
        cases hl : latlonProbe dkvs with
        | some d =>
          rw [hl] at h1
          have h2 : some d = some x := h1
          rw [← Option.some.inj h2]
          exact finalCheckFilter_of_latlonProbe hl
        | none =>
          rw [hl] at h1
          exact finalCheckFilter_of_latlonProbe h1
      | null => rw [hd] at h0; exact finalCheckFilter_of_latlonProbe h0
      | bool b => rw [hd] at h0; exact finalCheckFilter_of_latlonProbe h0
      | num q => rw [hd] at h0; exact finalCheckFilter_of_latlonProbe h0
      | str s => rw [hd] at h0; exact finalCheckFilter_of_latlonProbe h0
      | arr l => rw [hd] at h0; exact finalCheckFilter_of_latlonProbe h0
    | none => rw [hd] at h0; exact finalCheckFilter_of_latlonProbe h0
  | null => exact absurd h (by simp [probeOne])
  | bool b => exact absurd h (by simp [probeOne])
  | num q => exact absurd h (by simp [probeOne])
  | str s => exact absurd h (by simp [probeOne])
  | arr l => exact absurd h (by simp [probeOne])

lemma rmCore_filtered (pm : Option J) :
    (rmProbeCore pm).bind finalCheckFilter = amendedRmCore pm := by
  cases pm with
  | none => rfl
  | some v =>
    cases v with
    | obj pkvs =>
      show (match jsonLookup pkvs "data" with
          | some (.obj dkvs) =>
            if (jsonLookup dkvs "lat").isSome then some (J.obj dkvs) else latlonProbe pkvs
          | _ => latlonProbe pkvs).bind finalCheckFilter =
        (match jsonLookup pkvs "data" with
          | some (.obj dkvs) =>
            if (jsonLookup dkvs "lat").isSome then
              (if (jsonLookup dkvs "lon").isSome then some (J.obj dkvs) else none)
            else latlonProbe pkvs
          | _ => latlonProbe pkvs)
      cases hd : jsonLookup pkvs "data" with
      | some w =>
        cases w with
        | obj dkvs =>
          show (if (jsonLookup dkvs "lat").isSome then some (J.obj dkvs)
              else latlonProbe pkvs).bind finalCheckFilter =
            (if (jsonLookup dkvs "lat").isSome then
              (if (jsonLookup dkvs "lon").isSome then some (J.obj dkvs) else none)
            else latlonProbe pkvs)
          by_cases hlat : (jsonLookup dkvs "lat").isSome = true
          · rw [if_pos hlat, if_pos hlat]
            by_cases hlon : (jsonLookup dkvs "lon").isSome = true
            · rw [if_pos hlon]
              simp [finalCheckFilter_latlon hlat hlon]
            · rw [if_neg hlon]
              rw [Bool.not_eq_true] at hlon
              have hfc : finalCheckFilter (J.obj dkvs) = none := by
                unfold finalCheckFilter
                have hk : hasKey (J.obj dkvs) "lon" = false := by simp [hasKey, hlon]
                simp [hk]
              simp [hfc]
          · rw [if_neg hlat, if_neg hlat]
            exact latlonProbe_bind_filter pkvs
        | null => exact latlonProbe_bind_filter pkvs
        | bool b => exact latlonProbe_bind_filter pkvs
        | num q => exact latlonProbe_bind_filter pkvs
        | str s => exact latlonProbe_bind_filter pkvs
        | arr l => exact latlonProbe_bind_filter pkvs
      | none => exact latlonProbe_bind_filter pkvs
    | null => rfl
    | bool b => rfl
    | num q => rfl
    | str s => rfl
    | arr l => rfl

lemma rawProbe_filtered (parse : String → Option J) (kvs : List (String × J))
    (hempty : parse "" = none) :
    (rawMessageProbe parse kvs).bind finalCheckFilter = amendedRawProbe parse kvs := by
  unfold rawMessageProbe amendedRawProbe
  cases hrm : jsonLookup kvs "raw_message" with
  | none =>
    show (rmProbeCore (parse "")).bind finalCheckFilter = none
    rw [hempty]
    rfl
  | some v =>
    cases v with
    | str s =>
      show (rmProbeCore (parse s)).bind finalCheckFilter = amendedRmCore (parse s)
      exact rmCore_filtered (parse s)
    | null => rfl
    | bool b => rfl
    | num q => rfl
    | arr l => rfl
    | obj o => rfl

/-- The central refinement fact for the Flask extraction loop: on
well-shaped entries it does not raise and computes exactly the amended
extraction.  The hypothesis `parse "" = none` records that `json.loads` of
the empty string (the default raw message) always raises. -/
lemma entryFlask_amended (parse : String → Option J) (sf : String → Option ℚ) {e : J}
    (hempty : parse "" = none) (h : WellShapedEntry e) :
    entryFlask parse sf e = .ok (amendedExtractEntry parse sf e) := by
  obtain ⟨kvs, rfl, hdec⟩ := h
  obtain ⟨pkvs, hpk⟩ : ∃ pkvs, orEmptyObj (jsonLookup kvs "decoded") = J.obj pkvs := by
    cases hd : jsonLookup kvs "decoded" with
    | none => exact ⟨[], rfl⟩
    | some v =>
      by_cases ht : truthy v = true
      · obtain ⟨pkvs, rfl⟩ := hdec v hd ht
        exact ⟨pkvs, by simp [orEmptyObj, ht]⟩
      · refine ⟨[], ?_⟩
        rw [Bool.not_eq_true] at ht
        simp [orEmptyObj, ht]
  unfold entryFlask amendedExtractEntry
  show (match orEmptyObj (jsonLookup kvs "decoded") with
        | J.obj pkvs =>
          match (match entryCand0 pkvs with
                 | some c => some c
                 | none => rawMessageProbe parse kvs) with
          | none => Except.ok none
          | some c =>
            match finalCheckFilter c with
            | some c => Except.ok (coerceStrike sf c)
            | none => Except.ok none
        | _ => Except.error ()) =
      Except.ok (match orEmptyObj (jsonLookup kvs "decoded") with
        | J.obj pkvs =>
          (match specContainersProbe pkvs with
           | some c => some c
           | none => amendedRawProbe parse kvs).bind (coerceStrike sf)
        | _ => none)
  rw [hpk]
  show (match (match entryCand0 pkvs with
               | some c => some c
               | none => rawMessageProbe parse kvs) with
        | none => Except.ok none
        | some c =>
          match finalCheckFilter c with
          | some c => Except.ok (coerceStrike sf c)
          | none => Except.ok none) =
      Except.ok ((match specContainersProbe pkvs with
            | some c => some c
            | none => amendedRawProbe parse kvs).bind (coerceStrike sf))
  rw [specContainersProbe_eq]
  cases hc0 : entryCand0 pkvs with
  | some c =>
    have hfc : finalCheckFilter c = some c := by
      unfold entryCand0 at hc0
      split_ifs at hc0 with hs
      cases hA : probeOne (orEmptyObj (jsonLookup pkvs "raw")) with
      | some c1 =>
        rw [hA] at hc0
        have hcc : some c1 = some c := hc0
        rw [← Option.some.inj hcc]
        exact finalCheckFilter_of_probeOne hA
      | none =>
        rw [hA] at hc0
        exact finalCheckFilter_of_probeOne hc0
    show (match finalCheckFilter c with
          | some c => Except.ok (coerceStrike sf c)
          | none => Except.ok none) =
        Except.ok ((some c).bind (coerceStrike sf))
    rw [hfc]
    rfl
  | none =>
    rw [← rawProbe_filtered parse kvs hempty]
    show (match rawMessageProbe parse kvs with
          | none => Except.ok none
          | some c =>
            match finalCheckFilter c with
            | some c => Except.ok (coerceStrike sf c)
            | none => Except.ok none) =
        Except.ok (((rawMessageProbe parse kvs).bind finalCheckFilter).bind (coerceStrike sf))
    cases hr : rawMessageProbe parse kvs with
    | none => rfl
    | some c =>
      show (match finalCheckFilter c with
            | some c => Except.ok (coerceStrike sf c)
            | none => Except.ok none) =
          Except.ok ((finalCheckFilter c).bind (coerceStrike sf))
      cases hf : finalCheckFilter c with
      | none => rfl
      | some c2 => rfl

lemma entriesFlask_amended (parse : String → Option J) (sf : String → Option ℚ)
    (hempty : parse "" = none) :
    ∀ entries : List J, (∀ e ∈ entries, WellShapedEntry e) →
    ∃ l, entriesFlask parse sf entries = .ok l := by
  intro entries
  induction entries with
  | nil => intro _; exact ⟨[], rfl⟩
  | cons e rest ih =>
    intro h
    obtain ⟨l, hl⟩ := ih (fun x hx => h x (by simp [hx]))
    have heq : entriesFlask parse sf (e :: rest) =
        ((entryFlask parse sf e).bind fun c => (entriesFlask parse sf rest).bind fun l =>
          pure (match c with | some s => s :: l | none => l)) := rfl
    rw [heq, entryFlask_amended parse sf hempty (h e (by simp)), hl]
    exact ⟨_, rfl⟩

/-- A concrete `float()`-on-strings model; no string value reaches the
coercion in the concrete inputs below. -/
def sfNone : String → Option ℚ := fun _ => none

/-- The parsed raw message of the C4 counterexample:
a dict with a nested data dict holding only `lat`, while the dict itself
holds both `lat` and `lon`. -/
def c4Pm : J := J.obj [("data", J.obj [("lat", J.num 1)]), ("lat", J.num 2), ("lon", J.num 3)]

/-- A log entry whose decode failed, carrying the raw message above. -/
def c4Entry : J :=
  J.obj [("decoded", J.obj [("success", J.bool false)]), ("raw_message", J.str "rm0")]

def c4Parse : String → Option J :=
  fun s =>
    if s = "[c4]" then some (J.arr [c4Entry])
    else if s = "rm0" then some c4Pm else none

/-- Counterexample to C4 as stated: on an entry whose raw message parses to
`c4Pm`, the claimed "same two probes" extraction yields the point
(2, 3, 1) (data lacks `lon`, so the payload itself matches), but the code
extracts nothing: its raw-message probe checks the data dict only for
`lat`, commits to it (`elif`), and the final check then discards it. -/
theorem C4_strike_extraction_counterexample :
    read_strikes_from_collector c4Parse sfNone (some "[c4]") 500 = .ok [] ∧
    claimExtractEntry c4Parse sfNone c4Entry = some (2, 3, 1) :=
  ⟨rfl, rfl⟩

/-- C4 (amended): strike extraction probes, in order, the raw and cleaned
payloads of a successful decode with probes (a) nested `data` with `lat`
and `lon`, (b) the payload itself with `lat` and `lon`; if those fail it
parses the raw message string, but there the nested `data` dict is probed
only for `lat` and, when present, the payload itself is not probed; a
candidate lacking `lon` is discarded; the first surviving match is coerced
to floats with intensity `mcg`, else `intensity`, else 1.  (`parse ""`
models `json.loads` of the default empty raw message, which raises.) -/
theorem C4_strike_extraction_amended (parse : String → Option J) (sf : String → Option ℚ)
    (e : J) (hempty : parse "" = none) (hshape : WellShapedEntry e) :
    entryFlask parse sf e = .ok (amendedExtractEntry parse sf e) :=
  entryFlask_amended parse sf hempty hshape

/-- Witness for the amended C4 at the concrete counterexample entry. -/
theorem C4_strike_extraction_amended_witness :
    entryFlask c4Parse sfNone c4Entry = .ok (amendedExtractEntry c4Parse sfNone c4Entry) :=
  C4_strike_extraction_amended c4Parse sfNone c4Entry rfl
    ⟨[("decoded", J.obj [("success", J.bool false)]), ("raw_message", J.str "rm0")], rfl,
      by
        intro v hv _
        have hv2 : some (J.obj [("success", J.bool false)]) = some v := hv
        exact ⟨[("success", J.bool false)], (Option.some.inj hv2).symm⟩⟩

/-- C5 (amended): the parse stage of both readers never raises — a missing
file, empty content, or content unparseable after bracket repair yields an
empty point set, and the repair appends `]` exactly when the stripped
content starts with `[` and does not end with `]`.  The aiohttp reader
never raises at all; the Flask reader's extraction loop (outside its
`try`) does not raise provided the parsed content is an array of
well-shaped entries. -/
theorem C5_read_path_amended :
    (∀ (parse : String → Option J) (sf : String → Option ℚ) (limit : ℕ),
      read_strikes_from_collector parse sf none limit = .ok [] ∧
      get_strikes_aio parse none = []) ∧
    (∀ (parse : String → Option J) (sf : String → Option ℚ) (limit : ℕ) (content : String),
      pyStrip content = "" →
      read_strikes_from_collector parse sf (some content) limit = .ok []) ∧
    (∀ content : String, startsBracket (pyStrip content) = true →
      endsBracket (pyStrip content) = false →
      repairContent (pyStrip content) = pyStrip content ++ "]") ∧
    (∀ (parse : String → Option J) (sf : String → Option ℚ) (limit : ℕ) (content : String),
      parse (repairContent (pyStrip content)) = none →
      read_strikes_from_collector parse sf (some content) limit = .ok [] ∧
      get_strikes_aio parse (some content) = []) ∧
    (∀ (parse : String → Option J) (sf : String → Option ℚ) (limit : ℕ) (content : String)
      (entries : List J),
      parse "" = none →
      parse (repairContent (pyStrip content)) = some (J.arr entries) →
      (∀ e ∈ lastN limit entries, WellShapedEntry e) →
      ∃ l, read_strikes_from_collector parse sf (some content) limit = .ok l) := by
  refine ⟨fun parse sf limit => ⟨rfl, rfl⟩, ?_, ?_, ?_, ?_⟩
  · intro parse sf limit content h
    simp [read_strikes_from_collector, h]
  · intro content h1 h2
    simp [repairContent, h1, h2]
  · intro parse sf limit content h
    constructor
    · cases he : (pyStrip content).data.isEmpty with
      | true => simp [read_strikes_from_collector, he]
      | false => simp [read_strikes_from_collector, he, h]
    · simp [get_strikes_aio, h]
  · intro parse sf limit content entries hemp hparse hws
    cases he : (pyStrip content).data.isEmpty with
    | true =>
      exfalso
      have hdata : (pyStrip content).data = "".data := by
        simpa [List.isEmpty_iff] using he
      have hs : pyStrip content = "" := by
        cases hps : pyStrip content
        cases hemp2 : ("" : String)
        congr
        rw [hps] at hdata
        rw [hemp2] at hdata
        exact hdata
      rw [hs, show repairContent "" = "" from rfl, hemp] at hparse
      exact absurd hparse (by simp)
    | false =>
      obtain ⟨l, hl⟩ := entriesFlask_amended parse sf hemp (lastN limit entries) hws
      refine ⟨l, ?_⟩
      simp [read_strikes_from_collector, he, hparse, hl]

/-- The C5 counterexample content: `[5]` parses, but the entry `5` is not a
dict, so `entry.get("decoded")` raises `AttributeError` outside the
reader's `try` block. -/
def c5Parse : String → Option J := fun s => if s = "[5]" then some (J.arr [J.num 5]) else none

/-- Counterexample to C5 as stated: the Flask read path raises on the
parseable file content `[5]` (the claim says it never raises for any file
content). -/
theorem C5_read_path_counterexample :
    read_strikes_from_collector c5Parse sfNone (some "[5]") 500 = .error () := rfl

def c5wEntry : J := J.obj [("decoded", J.bool false), ("raw_message", J.str "x")]

def c5wParse : String → Option J :=
  fun s => if s = "[w]" then some (J.arr [c5wEntry]) else none

/-- Witness for the amended C5 at concrete inputs: a truncated content gets
its bracket appended, unparseable content yields `[]`, and a well-shaped
one-entry log is read without raising. -/
theorem C5_read_path_amended_witness :
    repairContent (pyStrip " [1,2 ") = pyStrip " [1,2 " ++ "]" ∧
    read_strikes_from_collector c5wParse sfNone (some "zz") 500 = .ok [] ∧
    (∃ l, read_strikes_from_collector c5wParse sfNone (some "[w]") 500 = .ok l) := by
  refine ⟨C5_read_path_amended.2.2.1 " [1,2 " (by rfl) (by rfl),
    (C5_read_path_amended.2.2.2.1 c5wParse sfNone 500 "zz" (by rfl)).1,
    C5_read_path_amended.2.2.2.2 c5wParse sfNone 500 "[w]" [c5wEntry] (by rfl) (by rfl) ?_⟩
  intro e he
  have hl : lastN 500 [c5wEntry] = [c5wEntry] := rfl
  rw [hl, List.mem_singleton] at he
  subst he
  refine ⟨[("decoded", J.bool false), ("raw_message", J.str "x")], rfl, ?_⟩
  intro v hv htr
  have hv2 : some (J.bool false) = some v := hv
  rw [← Option.some.inj hv2] at htr
  simp [truthy] at htr

/-! ## Spatial analysis engine: local density and greedy hotspot selection

The algorithms only compare distances, so they are embedded over an
arbitrary linear ordered field `K` with the distance function `d` a
parameter: instantiating `d` with `haversine_distance` over `ℝ` recovers
the source composition, while rational-valued instances keep the concrete
witnesses computable. -/

/-- `_calculate_local_density`: the number of strikes within `radius` of
`strike` (the strike itself included, its distance being 0). -/
def calculate_local_density {α K : Type} [LinearOrderedField K]
    (d : α → α → K) (radius : K) (strike : α) (all : List α) : ℕ :=
  (all.filter (fun o => decide (d strike o ≤ radius))).length

/-- Stable descending insertion by the first component.  Python's
`list.sort(key=lambda x: x[0], reverse=True)` is a stable descending sort;
a stable sort's output is uniquely determined by the key order, so
insertion sort with this insertion computes it. -/
def insertDesc {α : Type} (x : ℕ × α) : List (ℕ × α) → List (ℕ × α)
  | [] => [x]
  | y :: ys => if x.1 < y.1 then y :: insertDesc x ys else x :: y :: ys

def sortDescStable {α : Type} : List (ℕ × α) → List (ℕ × α)
  | [] => []
  | x :: xs => insertDesc x (sortDescStable xs)

/-- `greedy_hotspot_selection` of app.py: all strikes when there are at
most `k` of them, else the strikes of the top `k` (density, strike) pairs
under the stable descending sort on density. -/
def greedy_hotspot_selection_flask {α K : Type} [LinearOrderedField K]
    (d : α → α → K) (k : ℕ) (strikes : List α) : List α :=
  if strikes.length ≤ k then strikes
  else
    ((sortDescStable
      (strikes.map (fun s => (calculate_local_density d 50 s strikes, s)))).take k).map
      Prod.snd

/-- Descending insertion for the aiohttp variant, which sorts the raw
`(density, strike)` tuples with `sort(reverse=True)`: when two densities
are equal, Python's tuple comparison falls through to comparing the strike
dicts, which raises `TypeError` (dicts are not ordered). -/
def insertTupleDesc {α : Type} (x : ℕ × α) : List (ℕ × α) → Except Unit (List (ℕ × α))
  | [] => .ok [x]
  | y :: ys =>
    if x.1 = y.1 then .error ()
    else if x.1 < y.1 then do
      let r ← insertTupleDesc x ys
      .ok (y :: r)
    else .ok (x :: y :: ys)

def sortTupleDesc {α : Type} : List (ℕ × α) → Except Unit (List (ℕ × α))
  | [] => .ok []
  | x :: xs => do
    let r ← sortTupleDesc xs
    insertTupleDesc x r

/-- `greedy_hotspot_selection` of blitzortung_api.py (`TypeError` on a
density tie is modelled as `.error`). -/
def greedy_hotspot_selection_aio {α K : Type} [LinearOrderedField K]
    (d : α → α → K) (k : ℕ) (strikes : List α) : Except Unit (List α) :=
  if strikes.length ≤ k then .ok strikes
  else do
    let sorted ← sortTupleDesc
      (strikes.map (fun s => (calculate_local_density d 50 s strikes, s)))
    .ok ((sorted.take k).map Prod.snd)

lemma insertDesc_filter {α : Type} (x : ℕ × α) (m : List (ℕ × α)) (c : ℕ) :
    (insertDesc x m).filter (fun p => decide (p.1 = c)) =
      if x.1 = c then x :: m.filter (fun p => decide (p.1 = c))
      else m.filter (fun p => decide (p.1 = c)) := by
  induction m with
  | nil =>
    by_cases hx : x.1 = c <;> simp [insertDesc, hx]
  | cons y ys ih =>
    simp only [insertDesc]
    by_cases hxy : x.1 < y.1
    · rw [if_pos hxy]
      simp only [List.filter_cons, ih]
      by_cases hy : y.1 = c
      · have hx : ¬ x.1 = c := by omega
        simp only [if_neg hx, if_pos (show (decide (y.1 = c)) = true by simp [hy])]
      · simp only [if_neg (show ¬ (decide (y.1 = c)) = true by simp [hy])]
    · rw [if_neg hxy]
      simp only [List.filter_cons]
      by_cases hx : x.1 = c
      · simp only [if_pos hx, if_pos (show (decide (x.1 = c)) = true by simp [hx])]
      · simp only [if_neg hx, if_neg (show ¬ (decide (x.1 = c)) = true by simp [hx])]

lemma sortDescStable_filter {α : Type} (l : List (ℕ × α)) (c : ℕ) :
    (sortDescStable l).filter (fun p => decide (p.1 = c)) =
      l.filter (fun p => decide (p.1 = c)) := by
  induction l with
  | nil => rfl
  | cons x xs ih =>
    simp only [sortDescStable, insertDesc_filter, ih, List.filter_cons]
    by_cases hx : x.1 = c
    · simp only [if_pos hx, if_pos (show (decide (x.1 = c)) = true by simp [hx])]
    · simp only [if_neg hx, if_neg (show ¬ (decide (x.1 = c)) = true by simp [hx])]

lemma insertDesc_perm {α : Type} (x : ℕ × α) (l : List (ℕ × α)) :
    (insertDesc x l).Perm (x :: l) := by
  induction l with
  | nil => exact List.Perm.refl _
  | cons y ys ih =>
    simp only [insertDesc]
    by_cases hxy : x.1 < y.1
    · rw [if_pos hxy]
      exact (ih.cons y).trans (List.Perm.swap x y ys)
    · rw [if_neg hxy]

lemma sortDescStable_perm {α : Type} (l : List (ℕ × α)) :
    (sortDescStable l).Perm l := by
  induction l with
  | nil => exact List.Perm.refl _
  | cons x xs ih =>
    exact (insertDesc_perm x (sortDescStable xs)).trans (ih.cons x)

lemma insertDesc_pairwise {α : Type} (x : ℕ × α) {l : List (ℕ × α)}
    (h : l.Pairwise (fun a b => b.1 ≤ a.1)) :
    (insertDesc x l).Pairwise (fun a b => b.1 ≤ a.1) := by
  induction l with
  | nil => simp [insertDesc]
  | cons y ys ih =>
    rw [List.pairwise_cons] at h
    simp only [insertDesc]
    by_cases hxy : x.1 < y.1
    · rw [if_pos hxy]
      rw [List.pairwise_cons]
      constructor
      · intro z hz
        rcases List.mem_cons.mp ((insertDesc_perm x ys).mem_iff.mp hz) with hzx | hzy
        · subst hzx
          exact le_of_lt hxy
        · exact h.1 z hzy
      · exact ih h.2
    · rw [if_neg hxy]
      rw [List.pairwise_cons]
      refine ⟨?_, List.pairwise_cons.mpr h⟩
      intro z hz
      rcases List.mem_cons.mp hz with hzy | hzys
      · subst hzy
        omega
      · have := h.1 z hzys
        omega

lemma sortDescStable_pairwise {α : Type} (l : List (ℕ × α)) :
    (sortDescStable l).Pairwise (fun a b => b.1 ≤ a.1) := by
  induction l with
  | nil => simp [sortDescStable]
  | cons x xs ih => exact insertDesc_pairwise x ih

lemma map_snd_pair {α β : Type} (f : α → β) (l : List α) :
    (l.map (fun s => (f s, s))).map Prod.snd = l := by
  induction l with
  | nil => rfl
  | cons a t ih => simp [ih]

lemma pairwise_take_drop {α : Type} {l : List (ℕ × α)}
    (h : l.Pairwise (fun a b => b.1 ≤ a.1)) (k : ℕ) :
    ∀ p ∈ l.take k, ∀ q ∈ l.drop k, q.1 ≤ p.1 := by
  have h2 : (l.take k ++ l.drop k).Pairwise (fun a b => b.1 ≤ a.1) := by
    rw [List.take_append_drop]
    exact h
  exact (List.pairwise_append.mp h2).2.2

/-- C6: greedy hotspot selection (the non-raising Flask implementation)
returns exactly `min k n` points — all of them, unmodified, when `n ≤ k` —
and no omitted point has a strictly higher local density (count of points
within the 50 km radius, itself included) than any selected point. -/
theorem C6_greedy_min_k_and_density_dominance {α K : Type} [LinearOrderedField K]
    (d : α → α → K) (k : ℕ) (strikes : List α) :
    (greedy_hotspot_selection_flask d k strikes).length = min k strikes.length ∧
    (strikes.length ≤ k → greedy_hotspot_selection_flask d k strikes = strikes) ∧
    ∃ omitted : List α,
      (greedy_hotspot_selection_flask d k strikes ++ omitted).Perm strikes ∧
      ∀ s ∈ greedy_hotspot_selection_flask d k strikes, ∀ t ∈ omitted,
        calculate_local_density d 50 t strikes ≤ calculate_local_density d 50 s strikes := by
  by_cases hk : strikes.length ≤ k
  · rw [greedy_hotspot_selection_flask, if_pos hk]
    refine ⟨(min_eq_right hk).symm, fun _ => rfl, [], by simp, ?_⟩
    intro s _ t ht
    exact absurd ht (List.not_mem_nil t)
  · have hgr : greedy_hotspot_selection_flask d k strikes =
        ((sortDescStable
          (strikes.map (fun s => (calculate_local_density d 50 s strikes, s)))).take k).map
          Prod.snd := by
      rw [greedy_hotspot_selection_flask, if_neg hk]
    set pairs := strikes.map (fun s => (calculate_local_density d 50 s strikes, s)) with hpairs
    have hperm : (sortDescStable pairs).Perm pairs := sortDescStable_perm pairs
    have hlen : (sortDescStable pairs).length = strikes.length := by
      rw [hperm.length_eq, hpairs, List.length_map]
    have hkey : ∀ p ∈ sortDescStable pairs,
        p.1 = calculate_local_density d 50 p.2 strikes ∧ p.2 ∈ strikes := by
      intro p hp
      have hp2 := hperm.mem_iff.mp hp
      rw [hpairs] at hp2
      obtain ⟨s, hs, hsp⟩ := List.mem_map.mp hp2
      refine ⟨?_, ?_⟩
      · rw [← hsp]
      · rw [← hsp]
        exact hs
    refine ⟨?_, fun h => absurd h hk, ?_⟩
    · rw [hgr, List.length_map, List.length_take, hlen]
    · refine ⟨((sortDescStable pairs).drop k).map Prod.snd, ?_, ?_⟩
      · rw [hgr, ← List.map_append, List.take_append_drop]
        have hsp : ((sortDescStable pairs).map Prod.snd).Perm (pairs.map Prod.snd) :=
          hperm.map Prod.snd
        refine hsp.trans ?_
        have hms : pairs.map Prod.snd = strikes := by
          rw [hpairs]
          exact map_snd_pair _ strikes
        rw [hms]
      · intro s hs t ht
        rw [hgr] at hs
        obtain ⟨p, hp, hps⟩ := List.mem_map.mp hs
        obtain ⟨q, hq, hqt⟩ := List.mem_map.mp ht
        have hdom := pairwise_take_drop (sortDescStable_pairwise pairs) k p hp q hq
        have hpk := (hkey p (List.mem_of_mem_take hp)).1
        have hqk := (hkey q (List.mem_of_mem_drop hq)).1
        rw [← hps, ← hqt, ← hpk, ← hqk]
        exact hdom

/-- A concrete distance matrix on point ids: distinct points are 100 km
apart (beyond the 50 km density radius), so every density is 1. -/
def c6Dist : ℕ → ℕ → ℚ := fun i j => if i = j then 0 else 100

/-- Witness for C6 at concrete inputs: a 1-point set with `k = 10` is
returned unmodified, and with `k = 1` a 3-point set yields `min 1 3`
points. -/
theorem C6_greedy_min_k_and_density_dominance_witness :
    greedy_hotspot_selection_flask c6Dist 10 [(7 : ℕ)] = [7] ∧
    (greedy_hotspot_selection_flask c6Dist 1 [(1 : ℕ), 2, 3]).length =
      min 1 [(1 : ℕ), 2, 3].length :=
  ⟨(C6_greedy_min_k_and_density_dominance c6Dist 10 [7]).2.1 (by decide),
    (C6_greedy_min_k_and_density_dominance c6Dist 1 [1, 2, 3]).1⟩

/-- Eleven points that are pairwise 111 km apart (the distance matrix of
eleven strikes spaced one degree of latitude apart along a meridian): all
local densities are 1, so the aiohttp tuple sort hits a density tie. -/
def c2Dist : ℕ → ℕ → ℚ := fun i j => if i = j then 0 else 111

/-- C2: the stable descending sort used by the Flask implementation keeps
points of equal density in their original relative order (the filter at any
density value is unchanged by the sort); but the aiohttp implementation
does not complete without raising: on eleven pairwise-distant points (all
densities equal) with k = 10 its tuple sort compares two strike dicts and
raises `TypeError`. -/
theorem C2_greedy_stability_and_aio_tie_raise :
    (∀ (α : Type) (l : List (ℕ × α)) (c : ℕ),
      (sortDescStable l).filter (fun p => decide (p.1 = c)) =
        l.filter (fun p => decide (p.1 = c))) ∧
    greedy_hotspot_selection_aio c2Dist 10 (List.range 11) = .error () := by
  refine ⟨fun α l c => sortDescStable_filter l c, ?_⟩
  rfl

/-! ## Prim's MST phase (prim_mst_clusters of app.py and blitzortung_api.py)

The phase is embedded over the distance matrix `w` (indices into the strike
list); the loop is given explicit fuel, with `none` meaning the iteration
bound was exhausted while the `while` guard still held. -/

/-- Whether a candidate edge weight strictly improves the current best
(`float('inf')` start: anything beats no edge). -/
def edgeBetter {n : ℕ} {K : Type} [LinearOrderedField K]
    (best : Option (K × Fin n × Fin n)) (c : K) : Bool :=
  match best with
  | none => true
  | some b => decide (c < b.1)

/-- The inner double loop of one Prim iteration: scan `u` over the visited
set and `v` over all indices, keeping the best edge with `v` unvisited and
`dist_matrix[u][v] > 0`.  (Python iterates its `set` in unspecified order;
iterating in ascending order is one admissible order, and which states
admit *some* edge does not depend on it.) -/
def find_min_edge {n : ℕ} {K : Type} [LinearOrderedField K]
    (w : Fin n → Fin n → K) (visited : Finset (Fin n)) : Option (K × Fin n × Fin n) :=
  ((List.finRange n).filter (fun u => decide (u ∈ visited))).foldl
    (fun best u =>
      (List.finRange n).foldl
        (fun best v =>
          if v ∉ visited ∧ 0 < w u v ∧ edgeBetter best (w u v) = true then
            some (w u v, u, v)
          else best)
        best)
    none

/-- The Prim loop of app.py: `while len(visited) < n`, add the found edge,
and `break` when no edge connects a visited to an unvisited vertex. -/
def prim_loop_flask {n : ℕ} {K : Type} [LinearOrderedField K] (w : Fin n → Fin n → K) :
    ℕ → Finset (Fin n) → List (K × Fin n × Fin n) → Option (List (K × Fin n × Fin n))
  | 0, visited, edges => if visited.card < n then none else some edges
  | fuel + 1, visited, edges =>
    if visited.card < n then
      match find_min_edge w visited with
      | some e => prim_loop_flask w fuel (insert e.2.2 visited) (edges ++ [e])
      | none => some edges
    else some edges

/-- The Prim loop of blitzortung_api.py: identical, except that when no
edge is found the loop body ends without a `break`, so the state is
unchanged and the `while` guard is re-tested forever. -/
def prim_loop_aio {n : ℕ} {K : Type} [LinearOrderedField K] (w : Fin n → Fin n → K) :
    ℕ → Finset (Fin n) → List (K × Fin n × Fin n) → Option (List (K × Fin n × Fin n))
  | 0, visited, edges => if visited.card < n then none else some edges
  | fuel + 1, visited, edges =>
    if visited.card < n then
      match find_min_edge w visited with
      | some e => prim_loop_aio w fuel (insert e.2.2 visited) (edges ++ [e])
      | none => prim_loop_aio w fuel visited edges
    else some edges

lemma foldl_preserve {β γ : Type} (P : β → Prop) (f : β → γ → β) :
    ∀ (l : List γ) (b : β), P b → (∀ b c, P b → P (f b c)) → P (l.foldl f b) := by
  intro l
  induction l with
  | nil => intro b hb _; exact hb
  | cons c t ih => intro b hb hf; exact ih _ (hf b c hb) hf

lemma find_min_edge_not_visited {n : ℕ} {K : Type} [LinearOrderedField K]
    (w : Fin n → Fin n → K) (visited : Finset (Fin n)) :
    ∀ e, find_min_edge w visited = some e → e.2.2 ∉ visited := by
  have key : ∀ e', (find_min_edge w visited) = some e' → e'.2.2 ∉ visited := by
    unfold find_min_edge
    refine foldl_preserve
      (fun best : Option (K × Fin n × Fin n) => ∀ e', best = some e' → e'.2.2 ∉ visited)
      _ _ none (by intro e' h; exact absurd h (by simp)) ?_
    intro b u hb
    refine foldl_preserve
      (fun best : Option (K × Fin n × Fin n) => ∀ e', best = some e' → e'.2.2 ∉ visited)
      _ _ b hb ?_
    intro b' v hb'
    by_cases hc : v ∉ visited ∧ 0 < w u v ∧ edgeBetter b' (w u v) = true
    · rw [if_pos hc]
      intro e' he'
      rw [← Option.some.inj he']
      exact hc.1
    · rw [if_neg hc]
      exact hb'
  exact key

lemma prim_loop_flask_terminates {n : ℕ} {K : Type} [LinearOrderedField K]
    (w : Fin n → Fin n → K) :
    ∀ (fuel : ℕ) (visited : Finset (Fin n)) (edges : List (K × Fin n × Fin n)),
      n ≤ visited.card + fuel → (prim_loop_flask w fuel visited edges).isSome = true := by
  intro fuel
  induction fuel with
  | zero =>
    intro visited edges h
    have : ¬ (visited.card < n) := by omega
    simp [prim_loop_flask, this]
  | succ fuel ih =>
    intro visited edges h
    by_cases hlt : visited.card < n
    · rw [prim_loop_flask, if_pos hlt]
      cases hfm : find_min_edge w visited with
      | some e =>
        have hv := find_min_edge_not_visited w visited e hfm
        have hcard : (insert e.2.2 visited).card = visited.card + 1 :=
          Finset.card_insert_of_not_mem hv
        exact ih _ _ (by omega)
      | none => simp
    · rw [prim_loop_flask, if_neg hlt]
      simp

/-- The distance matrix of two identical points: the haversine distance of
a point to itself is 0, so every matrix entry is 0. -/
def c1W : Fin 2 → Fin 2 → ℚ := fun _ _ => 0

/-- C1: the Prim phase of app.py terminates on every input (fuel `n`
suffices from the initial state `visited = {0}`), and on two identical
points it stops early with no edges (all candidate edges are filtered by
`dist_matrix[u][v] > 0`); the Prim phase of blitzortung_api.py, which lacks
the `break`, loops forever on the same input: for every iteration bound the
loop is still running. -/
theorem C1_prim_stops_early_vs_loops :
    (∀ (n : ℕ) (w : Fin (n + 1) → Fin (n + 1) → ℚ)
      (edges : List (ℚ × Fin (n + 1) × Fin (n + 1))),
      (prim_loop_flask w (n + 1) {0} edges).isSome = true) ∧
    prim_loop_flask c1W 2 {0} [] = some [] ∧
    (∀ fuel : ℕ, prim_loop_aio c1W fuel {0} [] = none) := by
  refine ⟨?_, ?_, ?_⟩
  · intro n w edges
    apply prim_loop_flask_terminates
    rw [Finset.card_singleton]
    omega
  · decide
  · intro fuel
    induction fuel with
    | zero => decide
    | succ fuel ih =>
      have hfm : find_min_edge c1W ({0} : Finset (Fin 2)) = none := by decide
      simp only [prim_loop_aio]
      rw [if_pos (by decide : ({0} : Finset (Fin 2)).card < 2), hfm]
      exact ih

/-! ## BFS connected components (bfs_connected_components)

Both implementations are identical.  The traversal is embedded over strike
indices, with the adjacency `adj i j` standing for
`haversine_distance(strikes[i], strikes[j]) <= max_distance_km`; the
returned components of strike values are the index components mapped
through the strike list (the code appends the same values in the same
order). -/

/-- The neighbor scan of one dequeue: all indices `j` (in index order) that
are not yet visited and are within the threshold of the current strike. -/
def bfsNew {n : ℕ} (adj : Fin n → Fin n → Bool) (visited : Finset (Fin n)) (cur : Fin n) :
    List (Fin n) :=
  (List.finRange n).filter (fun j => decide (j ∉ visited) && adj cur j)

lemma bfsNew_nodup {n : ℕ} (adj : Fin n → Fin n → Bool) (visited : Finset (Fin n))
    (cur : Fin n) : (bfsNew adj visited cur).Nodup :=
  (List.nodup_finRange n).filter _

lemma bfsNew_not_visited {n : ℕ} (adj : Fin n → Fin n → Bool) (visited : Finset (Fin n))
    (cur : Fin n) : ∀ j ∈ bfsNew adj visited cur, j ∉ visited := by
  intro j hj
  rw [bfsNew, List.mem_filter] at hj
  have h2 := hj.2
  rw [Bool.and_eq_true, decide_eq_true_eq] at h2
  exact h2.1

lemma bfsNew_card {n : ℕ} (adj : Fin n → Fin n → Bool) (visited : Finset (Fin n))
    (cur : Fin n) :
    (visited ∪ (bfsNew adj visited cur).toFinset).card
      = visited.card + (bfsNew adj visited cur).length := by
  have hd : Disjoint visited (bfsNew adj visited cur).toFinset := by
    rw [Finset.disjoint_right]
    intro j hj
    exact bfsNew_not_visited adj visited cur j (List.mem_toFinset.mp hj)
  rw [Finset.card_union_of_disjoint hd,
    List.toFinset_card_of_nodup (bfsNew_nodup adj visited cur)]

lemma bfsNew_card_le {n : ℕ} (adj : Fin n → Fin n → Bool) (visited : Finset (Fin n))
    (cur : Fin n) : (visited ∪ (bfsNew adj visited cur).toFinset).card ≤ n := by
  calc (visited ∪ (bfsNew adj visited cur).toFinset).card
      ≤ (Finset.univ : Finset (Fin n)).card := Finset.card_le_univ _
    _ = n := by simp

/-- The BFS inner `while queue:` loop: dequeue from the front, append the
current strike index to the component, mark and enqueue the in-range
unvisited indices.  Terminates because each step either shrinks the queue
or grows the visited set. -/
def bfsLoop {n : ℕ} (adj : Fin n → Fin n → Bool) :
    Finset (Fin n) → List (Fin n) → List (Fin n) → Finset (Fin n) × List (Fin n)
  | visited, [], comp => (visited, comp)
  | visited, cur :: rest, comp =>
    bfsLoop adj (visited ∪ (bfsNew adj visited cur).toFinset)
      (rest ++ bfsNew adj visited cur) (comp ++ [cur])
  termination_by visited queue _ => (n - visited.card) + queue.length
  decreasing_by
    have h1 := bfsNew_card adj visited cur
    have h2 := bfsNew_card_le adj visited cur
    simp only [List.length_append, List.length_cons]
    omega

lemma bfsLoop_spec {n : ℕ} (adj : Fin n → Fin n → Bool) (V0 : Finset (Fin n)) :
    ∀ (visited : Finset (Fin n)) (queue comp : List (Fin n)),
      (∀ x, x ∈ visited ↔ (x ∈ V0 ∨ x ∈ comp ∨ x ∈ queue)) →
      (∀ x ∈ comp, x ∉ V0) →
      (∀ x ∈ queue, x ∉ V0) →
      (∀ x ∈ comp, x ∉ queue) →
      comp.Nodup → queue.Nodup →
      (∀ x, x ∈ (bfsLoop adj visited queue comp).1 ↔
        (x ∈ V0 ∨ x ∈ (bfsLoop adj visited queue comp).2)) ∧
      (∀ x ∈ (bfsLoop adj visited queue comp).2, x ∉ V0) ∧
      (bfsLoop adj visited queue comp).2.Nodup ∧
      (∀ x, (x ∈ comp ∨ x ∈ queue) → x ∈ (bfsLoop adj visited queue comp).2) := by
  intro visited queue comp
  induction visited, queue, comp using bfsLoop.induct adj with
  | case1 visited comp =>
    intro hV h0c h0q hcq hcn hqn
    simp only [bfsLoop]
    refine ⟨?_, h0c, hcn, ?_⟩
    · intro x
      rw [hV x]
      simp
    · intro x hx
      rcases hx with h | h
      · exact h
      · exact absurd h (List.not_mem_nil x)
  | case2 visited cur rest comp ih =>
    intro hV h0c h0q hcq hcn hqn
    have hnewNV := bfsNew_not_visited adj visited cur
    have hcurV : cur ∈ visited := (hV cur).mpr (Or.inr (Or.inr (by simp)))
    have hsub : ∀ x, x ∈ V0 → x ∈ visited := fun x hx => (hV x).mpr (Or.inl hx)
    have hcompV : ∀ x ∈ comp, x ∈ visited := fun x hx => (hV x).mpr (Or.inr (Or.inl hx))
    have hrestV : ∀ x ∈ rest, x ∈ visited :=
      fun x hx => (hV x).mpr (Or.inr (Or.inr (by simp [hx])))
    have hV' : ∀ x, x ∈ visited ∪ (bfsNew adj visited cur).toFinset ↔
        (x ∈ V0 ∨ x ∈ comp ++ [cur] ∨ x ∈ rest ++ bfsNew adj visited cur) := by
      intro x
      simp only [Finset.mem_union, List.mem_toFinset, List.mem_append, List.mem_singleton]
      rw [hV x]
      simp only [List.mem_cons]
      tauto
    have h0c' : ∀ x ∈ comp ++ [cur], x ∉ V0 := by
      intro x hx
      rcases List.mem_append.mp hx with h | h
      · exact h0c x h
      · rw [List.mem_singleton] at h
        subst h
        exact h0q x (by simp)
    have h0q' : ∀ x ∈ rest ++ bfsNew adj visited cur, x ∉ V0 := by
      intro x hx hx0
      rcases List.mem_append.mp hx with h | h
      · exact h0q x (by simp [h]) hx0
      · exact hnewNV x h (hsub x hx0)
    have hcq' : ∀ x ∈ comp ++ [cur], x ∉ rest ++ bfsNew adj visited cur := by
      intro x hx hx2
      rcases List.mem_append.mp hx2 with h2 | h2
      · rcases List.mem_append.mp hx with h | h
        · exact hcq x h (by simp [h2])
        · rw [List.mem_singleton] at h
          subst h
          exact (List.nodup_cons.mp hqn).1 h2
      · rcases List.mem_append.mp hx with h | h
        · exact hnewNV x h2 (hcompV x h)
        · rw [List.mem_singleton] at h
          subst h
          exact hnewNV x h2 hcurV
    have hcn' : (comp ++ [cur]).Nodup := by
      rw [List.nodup_append]
      refine ⟨hcn, List.nodup_singleton cur, ?_⟩
      intro x hx hx2
      rw [List.mem_singleton] at hx2
      subst hx2
      exact hcq x hx (by simp)
    have hqn' : (rest ++ bfsNew adj visited cur).Nodup := by
      rw [List.nodup_append]
      exact ⟨(List.nodup_cons.mp hqn).2, bfsNew_nodup adj visited cur,
        fun x hx hx2 => hnewNV x hx2 (hrestV x hx)⟩
    obtain ⟨c1, c2, c3, c4⟩ := ih hV' h0c' h0q' hcq' hcn' hqn'
    simp only [bfsLoop]
    refine ⟨c1, c2, c3, ?_⟩
    intro x hx
    apply c4
    rcases hx with h | h
    · exact Or.inl (List.mem_append_left [cur] h)
    · rcases List.mem_cons.mp h with h | h
      · subst h
        exact Or.inl (List.mem_append_right comp (by simp))
      · exact Or.inr (List.mem_append_left _ h)

/-- The outer `for i in range(len(strikes))` loop, collecting every
discovered component (before the size filter). -/
def bfsOuterAll {n : ℕ} (adj : Fin n → Fin n → Bool) :
    List (Fin n) → Finset (Fin n) → List (List (Fin n)) → List (List (Fin n))
  | [], _, acc => acc
  | i :: is, visited, acc =>
    if i ∈ visited then bfsOuterAll adj is visited acc
    else
      bfsOuterAll adj is (bfsLoop adj (insert i visited) [i] []).1
        (acc ++ [(bfsLoop adj (insert i visited) [i] []).2])

/-- The outer loop exactly as the code has it: a discovered component is
appended only when it has more than one member. -/
def bfsOuterCode {n : ℕ} (adj : Fin n → Fin n → Bool) :
    List (Fin n) → Finset (Fin n) → List (List (Fin n)) → List (List (Fin n))
  | [], _, acc => acc
  | i :: is, visited, acc =>
    if i ∈ visited then bfsOuterCode adj is visited acc
    else
      bfsOuterCode adj is (bfsLoop adj (insert i visited) [i] []).1
        (if 1 < (bfsLoop adj (insert i visited) [i] []).2.length
         then acc ++ [(bfsLoop adj (insert i visited) [i] []).2] else acc)

lemma bfsOuterAll_acc {n : ℕ} (adj : Fin n → Fin n → Bool) :
    ∀ (is : List (Fin n)) (visited : Finset (Fin n)) (acc : List (List (Fin n))),
      bfsOuterAll adj is visited acc = acc ++ bfsOuterAll adj is visited [] := by
  intro is
  induction is with
  | nil => intro visited acc; simp [bfsOuterAll]
  | cons i is ih =>
    intro visited acc
    by_cases hi : i ∈ visited
    · simp only [bfsOuterAll, if_pos hi]
      exact ih visited acc
    · simp only [bfsOuterAll, if_neg hi]
      rw [ih _ (acc ++ _), ih _ ([] ++ _)]
      simp

lemma bfsOuterCode_filter {n : ℕ} (adj : Fin n → Fin n → Bool) :
    ∀ (is : List (Fin n)) (visited : Finset (Fin n)) (acc : List (List (Fin n))),
      bfsOuterCode adj is visited acc =
        acc ++ (bfsOuterAll adj is visited []).filter (fun c => decide (1 < c.length)) := by
  intro is
  induction is with
  | nil => intro visited acc; simp [bfsOuterCode, bfsOuterAll]
  | cons i is ih =>
    intro visited acc
    by_cases hi : i ∈ visited
    · simp only [bfsOuterCode, bfsOuterAll, if_pos hi]
      exact ih visited acc
    · simp only [bfsOuterCode, bfsOuterAll, if_neg hi]
      rw [ih _ _, bfsOuterAll_acc adj is _ ([] ++ _)]
      simp only [List.nil_append, List.filter_append, List.filter_cons]
      by_cases hlen : 1 < (bfsLoop adj (insert i visited) [i] []).2.length
      · rw [if_pos hlen, if_pos (by simpa using hlen)]
        simp
      · rw [if_neg hlen, if_neg (by simpa using hlen)]
        simp

/-- All discovered components, starting from no visited indices. -/
def bfsAllComponents {n : ℕ} (adj : Fin n → Fin n → Bool) : List (List (Fin n)) :=
  bfsOuterAll adj (List.finRange n) ∅ []

/-- The returned components (the code's size filter applied). -/
def bfs_components_idx {n : ℕ} (adj : Fin n → Fin n → Bool) : List (List (Fin n)) :=
  bfsOuterCode adj (List.finRange n) ∅ []

/-- The adjacency used by the source: two strikes are neighbors iff their
haversine distance is at most `max_distance_km`. -/
def bfsAdj {α K : Type} [LinearOrderedField K] (d : α → α → K) (maxDist : K)
    (strikes : List α) : Fin strikes.length → Fin strikes.length → Bool :=
  fun i j => decide (d (strikes.get i) (strikes.get j) ≤ maxDist)

/-- `bfs_connected_components(strikes, max_distance_km)`. -/
def bfs_connected_components {α K : Type} [LinearOrderedField K]
    (d : α → α → K) (maxDist : K) (strikes : List α) : List (List α) :=
  if strikes.isEmpty then []
  else (bfs_components_idx (bfsAdj d maxDist strikes)).map (fun c => c.map strikes.get)

lemma bfsOuterAll_spec {n : ℕ} (adj : Fin n → Fin n → Bool) :
    ∀ (is : List (Fin n)) (visited : Finset (Fin n)) (acc : List (List (Fin n))),
      (∀ c ∈ acc, c.Nodup ∧ c ≠ []) →
      List.Pairwise (fun c d => ∀ x, x ∈ c → x ∉ d) acc →
      (∀ x, x ∈ visited ↔ ∃ c ∈ acc, x ∈ c) →
      (∀ c ∈ bfsOuterAll adj is visited acc, c.Nodup ∧ c ≠ []) ∧
      List.Pairwise (fun c d => ∀ x, x ∈ c → x ∉ d) (bfsOuterAll adj is visited acc) ∧
      (∀ x : Fin n, x ∈ is ∨ x ∈ visited → ∃ c ∈ bfsOuterAll adj is visited acc, x ∈ c) := by
  intro is
  induction is with
  | nil =>
    intro visited acc hprops hpair hViff
    simp only [bfsOuterAll]
    refine ⟨hprops, hpair, ?_⟩
    intro x hx
    rcases hx with h | h
    · exact absurd h (List.not_mem_nil x)
    · exact (hViff x).mp h
  | cons i is ih =>
    intro visited acc hprops hpair hViff
    by_cases hi : i ∈ visited
    · simp only [bfsOuterAll, if_pos hi]
      obtain ⟨d1, d2, d3⟩ := ih visited acc hprops hpair hViff
      refine ⟨d1, d2, ?_⟩
      intro x hx
      rcases hx with h | h
      · rcases List.mem_cons.mp h with h | h
        · subst h
          exact d3 x (Or.inr hi)
        · exact d3 x (Or.inl h)
      · exact d3 x (Or.inr h)
    · simp only [bfsOuterAll, if_neg hi]
      have hspec := bfsLoop_spec adj visited (insert i visited) [i] []
        (by
          intro x
          simp only [Finset.mem_insert, List.mem_singleton, List.not_mem_nil, false_or]
          tauto)
        (fun x hx => absurd hx (List.not_mem_nil x))
        (by
          intro x hx
          rw [List.mem_singleton] at hx
          subst hx
          exact hi)
        (fun x hx => absurd hx (List.not_mem_nil x))
        List.nodup_nil
        (List.nodup_singleton i)
      obtain ⟨r1, r2, r3, r4⟩ := hspec
      have hir : i ∈ (bfsLoop adj (insert i visited) [i] []).2 :=
        r4 i (Or.inr (by simp))
      have hne : (bfsLoop adj (insert i visited) [i] []).2 ≠ [] :=
        List.ne_nil_of_mem hir
      have hprops' : ∀ c ∈ acc ++ [(bfsLoop adj (insert i visited) [i] []).2],
          c.Nodup ∧ c ≠ [] := by
        intro c hc
        rcases List.mem_append.mp hc with h | h
        · exact hprops c h
        · rw [List.mem_singleton] at h
          subst h
          exact ⟨r3, hne⟩
      have hpair' : List.Pairwise (fun c d => ∀ x, x ∈ c → x ∉ d)
          (acc ++ [(bfsLoop adj (insert i visited) [i] []).2]) := by
        rw [List.pairwise_append]
        refine ⟨hpair, List.pairwise_singleton _ _, ?_⟩
        intro c hc c' hc' x hxc hxc'
        rw [List.mem_singleton] at hc'
        subst hc'
        exact r2 x hxc' ((hViff x).mpr ⟨c, hc, hxc⟩)
      have hViff' : ∀ x, x ∈ (bfsLoop adj (insert i visited) [i] []).1 ↔
          ∃ c ∈ acc ++ [(bfsLoop adj (insert i visited) [i] []).2], x ∈ c := by
        intro x
        rw [r1 x]
        constructor
        · intro h
          rcases h with h | h
          · obtain ⟨c, hc, hxc⟩ := (hViff x).mp h
            exact ⟨c, List.mem_append_left _ hc, hxc⟩
          · exact ⟨_, List.mem_append_right _ (by simp), h⟩
        · intro hcc
          obtain ⟨c, hc, hxc⟩ := hcc
          rcases List.mem_append.mp hc with h | h
          · exact Or.inl ((hViff x).mpr ⟨c, h, hxc⟩)
          · rw [List.mem_singleton] at h
            subst h
            exact Or.inr hxc
      obtain ⟨d1, d2, d3⟩ := ih _ _ hprops' hpair' hViff'
      refine ⟨d1, d2, ?_⟩
      intro x hx
      rcases hx with h | h
      · rcases List.mem_cons.mp h with h | h
        · subst h
          exact d3 x (Or.inr ((r1 x).mpr (Or.inr hir)))
        · exact d3 x (Or.inl h)
      · exact d3 x (Or.inr ((r1 x).mpr (Or.inl h)))

lemma count_sum_le_one {n : ℕ} (i : Fin n) :
    ∀ (M : List (List (Fin n))), (∀ c ∈ M, c.Nodup) →
      M.Pairwise (fun c d => ∀ x, x ∈ c → x ∉ d) →
      ((M.map (fun c => c.count i)).sum ≤ 1) := by
  intro M
  induction M with
  | nil => intro _ _; simp
  | cons c M ih =>
    intro hn hp
    rw [List.pairwise_cons] at hp
    simp only [List.map_cons, List.sum_cons]
    by_cases hic : i ∈ c
    · have h1 : c.count i ≤ 1 := List.nodup_iff_count_le_one.mp (hn c (by simp)) i
      have h2 : (M.map (fun c => c.count i)).sum = 0 := by
        rw [List.sum_eq_zero]
        intro x hx
        obtain ⟨e, he, hex⟩ := List.mem_map.mp hx
        rw [← hex, List.count_eq_zero]
        exact hp.1 e he i hic
      omega
    · have h1 : c.count i = 0 := by
        rw [List.count_eq_zero]
        exact hic
      have h2 := ih (fun e he => hn e (by simp [he])) hp.2
      omega

lemma bfs_components_partition {n : ℕ} (adj : Fin n → Fin n → Bool) :
    (∀ i : Fin n, ((bfs_components_idx adj).map (fun c => c.count i)).sum ≤ 1) ∧
    (∀ c ∈ bfs_components_idx adj, 1 < c.length) ∧
    (∀ i : Fin n, (∀ c ∈ bfs_components_idx adj, i ∉ c) ↔
      ∃ c ∈ bfsAllComponents adj, i ∈ c ∧ c.length = 1) := by
  obtain ⟨p1, p2, p3⟩ := bfsOuterAll_spec adj (List.finRange n) ∅ []
    (fun c hc => absurd hc (List.not_mem_nil c))
    List.Pairwise.nil
    (by intro x; simp)
  have hRL : bfs_components_idx adj =
      (bfsAllComponents adj).filter (fun c => decide (1 < c.length)) := by
    rw [bfs_components_idx, bfsOuterCode_filter adj (List.finRange n) ∅ [], bfsAllComponents]
    simp
  have hcov : ∀ x : Fin n, ∃ c ∈ bfsAllComponents adj, x ∈ c :=
    fun x => p3 x (Or.inl (List.mem_finRange x))
  refine ⟨?_, ?_, ?_⟩
  · intro i
    rw [hRL]
    apply count_sum_le_one
    · intro c hc
      exact (p1 c (List.mem_of_mem_filter hc)).1
    · exact List.Pairwise.filter _ p2
  · intro c hc
    rw [hRL] at hc
    have h2 := (List.mem_filter.mp hc).2
    simpa using h2
  · intro i
    obtain ⟨c0, hc0, hic0⟩ := hcov i
    have hdisj : ∀ c ∈ bfsAllComponents adj, ∀ c' ∈ bfsAllComponents adj,
        c ≠ c' → ∀ x, x ∈ c → x ∉ c' := by
      intro c hc c' hc' hne
      refine List.Pairwise.forall ?_ p2 hc hc' hne
      intro a b hab x hxb hxa
      exact hab x hxa hxb
    constructor
    · intro hnone
      refine ⟨c0, hc0, hic0, ?_⟩
      by_cases hlen : 1 < c0.length
      · exfalso
        refine hnone c0 ?_ hic0
        rw [hRL, List.mem_filter]
        exact ⟨hc0, by simpa using hlen⟩
      · have hpos : 0 < c0.length := List.length_pos.mpr (List.ne_nil_of_mem hic0)
        omega
    · intro hex c' hc' hic'
      obtain ⟨c, hc, hic, hlen1⟩ := hex
      have hc'L : c' ∈ bfsAllComponents adj := by
        rw [hRL] at hc'
        exact List.mem_of_mem_filter hc'
      have hlen' : 1 < c'.length := by
        rw [hRL] at hc'
        have h2 := (List.mem_filter.mp hc').2
        simpa using h2
      by_cases hcc : c = c'
      · subst hcc
        omega
      · exact hdisj c hc c' hc'L hcc i hic hic'

/-- C7: over any distance function and threshold (the source uses haversine
with the 50 km default), every strike index appears in at most one returned
BFS component (and at most once there); every returned component has more
than one member; and an index is in no returned component exactly when its
discovered component is a singleton.  The returned components of strike
values are the index components mapped through the strike list. -/
theorem C7_bfs_partition {α K : Type} [LinearOrderedField K]
    (d : α → α → K) (maxDist : K) (strikes : List α) :
    bfs_connected_components d maxDist strikes =
      (bfs_components_idx (bfsAdj d maxDist strikes)).map (fun c => c.map strikes.get) ∧
    (∀ i : Fin strikes.length,
      ((bfs_components_idx (bfsAdj d maxDist strikes)).map (fun c => c.count i)).sum ≤ 1) ∧
    (∀ c ∈ bfs_components_idx (bfsAdj d maxDist strikes), 1 < c.length) ∧
    (∀ i : Fin strikes.length,
      (∀ c ∈ bfs_components_idx (bfsAdj d maxDist strikes), i ∉ c) ↔
      ∃ c ∈ bfsAllComponents (bfsAdj d maxDist strikes), i ∈ c ∧ c.length = 1) := by
  obtain ⟨q1, q2, q3⟩ := bfs_components_partition (bfsAdj d maxDist strikes)
  refine ⟨?_, q1, q2, q3⟩
  cases strikes with
  | nil => rfl
  | cons s rest =>
    rw [bfs_connected_components, if_neg (by simp)]

/-- Three point ids: 0 and 1 are 10 km apart, 2 is 400 km from both. -/
def c7d : ℕ → ℕ → ℚ := fun i j =>
  if i = j then 0 else if i ≤ 1 ∧ j ≤ 1 then 10 else 400

/-- Witness for C7 at a concrete three-point input: the index 2 (the
isolated point) appears in at most one returned component. -/
theorem C7_bfs_partition_witness :
    ((bfs_components_idx (bfsAdj c7d 50 [(0 : ℕ), 1, 2])).map
      (fun c => c.count (⟨2, by decide⟩ : Fin [(0 : ℕ), 1, 2].length))).sum ≤ 1 :=
  (C7_bfs_partition c7d 50 [0, 1, 2]).2.1 ⟨2, by decide⟩
